import Mathlib

/-!
Verification of the Provider Ranking Engine (`backend/app/main.py`, `quote`).

Python `float` arithmetic is embedded as exact rational arithmetic (`ℚ`);
`round(x, 6)` is embedded as decimal rounding to 6 places (the claims under
study do not depend on the float rounding tie direction).  Python's `sorted`
(a stable sort) is embedded as `List.mergeSort`, which is stable, with the
same key `-composite_score`.

The functions imported from `backend/app/services.py` (`compute_for_provider`,
`_normalize`, `compute_financial_score`) are not part of the available
sources; they are modelled from the spec and marked as such.  Everything else
is translated directly from `backend/app/main.py`.
-/

/-- Rounding to 6 decimal places, the embedding of Python's `round(x, 6)`. -/
def round6 (q : ℚ) : ℚ := ((round (q * 1000000) : ℤ) : ℚ) / 1000000

/-- The embedding of Python's `str.upper()` (`main.py` lines 48-49):
uppercase each character. -/
def strUpper (s : String) : String := ⟨s.data.map Char.toUpper⟩

/-- Modelled from the spec: the fee rule set of a provider
(§9: "a tagged variant over supported fee-rule kinds (fixed, percentage,
fx-margin, min/max-clamped)").  The concrete rule evaluator lives in
`backend/app/services.py`, which is not among the available sources. -/
structure FeeRules where
  fixed_fee : ℚ
  pct_fee : ℚ
  fx_margin : ℚ
  min_fee : Option ℚ := none
  max_fee : Option ℚ := none
deriving DecidableEq

/-- One provider record as supplied by the provider store
(`db.query(Provider).all()` in `main.py`). -/
structure Provider where
  provider_id : ℕ
  code : String
  name : String
  country : String
  fee_rules : FeeRules
  trust_score : ℚ
  service_quality : ℚ
  customer_satisfaction : ℚ
  reliability : ℚ
  speed_score : ℚ
  notes : String
deriving DecidableEq

/-- The FeeModel Result (spec §3). -/
structure FeeResult where
  landing : ℚ
  effective_rate : ℚ
  fees : ℚ
  fee_breakdown : List (String × ℚ)
deriving DecidableEq

/-- Clamp a fee component to declared min/max bounds, when present. -/
def clampFee (v : ℚ) (lo hi : Option ℚ) : ℚ :=
  let v1 := match lo with | some l => max l v | none => v
  match hi with | some h => min h v1 | none => v1

/-- Modelled from the spec: `compute_for_provider` (the FeeModel Evaluator,
§4.1) lives in `backend/app/services.py`, absent from the sources.  Per the
spec: effective rate = spot rate adjusted by the fx-margin component;
fee breakdown = named components (`fixed_fee`, `percentage_fee =
rate_pct * amount`, clamped to any declared min/max); total fee = sum of the
breakdown; `landing = max(0, amount - total_fees) * effective_rate`. -/
def compute_for_provider (amount rate : ℚ) (rules : FeeRules) : FeeResult :=
  let effective_rate := rate * (1 - rules.fx_margin)
  let percentage_fee := clampFee (rules.pct_fee * amount) rules.min_fee rules.max_fee
  let fees := rules.fixed_fee + percentage_fee
  { landing := max 0 (amount - fees) * effective_rate
    effective_rate := effective_rate
    fees := fees
    fee_breakdown := [("fixed_fee", rules.fixed_fee), ("percentage_fee", percentage_fee)] }

/-- Modelled from the spec: `_normalize` (the Metric Normalizer, §4.2) lives
in `backend/app/services.py`, absent from the sources.  Per the spec: linear
rescale from the known raw scale (0-100) to [0,1], clamping out-of-range
input rather than failing. -/
def _normalize (raw : ℚ) : ℚ := min 1 (max 0 (raw / 100))

/-- The epsilon guarding the fee denominator in the financial sub-scorer
(spec §4.3 `max(fees, epsilon)`; the exact value is an implementation
choice). -/
def feeEpsilon : ℚ := 1 / 1000000

/-- Modelled from the spec: `compute_financial_score` (the Financial
Sub-Scorer, §4.3) lives in `backend/app/services.py`, absent from the
sources.  Per the spec: `0.5 * (landing / best_landing) +
0.5 * (best_fees / max(fees, epsilon))`, clamped into [0,1]; when
`best_landing` is 0 the landing ratio component is a fixed neutral value
(1/2) instead of a division by zero. -/
def compute_financial_score (landing fees best_landing best_fees : ℚ) : ℚ :=
  let landing_ratio := if best_landing = 0 then 1 / 2 else landing / best_landing
  let fee_ratio := best_fees / max fees feeEpsilon
  min 1 (max 0 (1 / 2 * landing_ratio + 1 / 2 * fee_ratio))

/-- One entry of `numeric_results` in `quote` (`main.py` lines 66-78). -/
structure NumericResult where
  provider_id : ℕ
  code : String
  name : String
  country : String
  landing : ℚ
  effective_rate : ℚ
  fees : ℚ
  fee_breakdown : List (String × ℚ)
  notes : String
deriving DecidableEq

/-- Builds one `numeric_results` entry (`main.py` lines 67-78). -/
def mkNumericResult (amount rate : ℚ) (p : Provider) : NumericResult :=
  let res := compute_for_provider amount rate p.fee_rules
  { provider_id := p.provider_id, code := p.code, name := p.name
    country := p.country, landing := res.landing
    effective_rate := res.effective_rate, fees := res.fees
    fee_breakdown := res.fee_breakdown, notes := p.notes }

/-- The `numeric_results` list (`main.py` lines 65-78). -/
def numericResults (amount rate : ℚ) (providers : List Provider) : List NumericResult :=
  providers.map (mkNumericResult amount rate)

/-- The criteria-weights mapping: its keys are exactly the six recognized
criteria (`default_weights` in `main.py` lines 80-87). -/
structure CriteriaWeights where
  fees_fx : ℚ
  trust : ℚ
  service : ℚ
  customer_satisfaction : ℚ
  reliability : ℚ
  speed : ℚ
deriving DecidableEq

/-- `default_weights` (`main.py` lines 80-87). -/
def default_weights : CriteriaWeights :=
  { fees_fx := 1 / 2, trust := 3 / 20, service := 3 / 20
    customer_satisfaction := 1 / 10, reliability := 3 / 50, speed := 1 / 25 }

/-- `merged[k] = float(v)` when `k in merged`, a no-op otherwise
(`main.py` lines 91-93). -/
def setWeight (w : CriteriaWeights) (k : String) (v : ℚ) : CriteriaWeights :=
  if k = "fees_fx" then { w with fees_fx := v }
  else if k = "trust" then { w with trust := v }
  else if k = "service" then { w with service := v }
  else if k = "customer_satisfaction" then { w with customer_satisfaction := v }
  else if k = "reliability" then { w with reliability := v }
  else if k = "speed" then { w with speed := v }
  else w

/-- `sum(merged.values())` (`main.py` line 94). -/
def weightsSum (w : CriteriaWeights) : ℚ :=
  w.fees_fx + w.trust + w.service + w.customer_satisfaction + w.reliability + w.speed

/-- `{k: v / total for k, v in merged.items()}` (`main.py` line 95). -/
def divWeights (w : CriteriaWeights) (total : ℚ) : CriteriaWeights :=
  { fees_fx := w.fees_fx / total, trust := w.trust / total
    service := w.service / total
    customer_satisfaction := w.customer_satisfaction / total
    reliability := w.reliability / total, speed := w.speed / total }

/-- The merge loop of `main.py` lines 90-93: defaults overridden by the
recognized keys of the user mapping (iterated in order, later entries
winning, matching `dict.items()` on the dict built from the pairs). -/
def mergeUserWeights (u : List (String × ℚ)) : CriteriaWeights :=
  u.foldl (fun w kv => setWeight w kv.1 kv.2) default_weights

/-- The weight-resolution block of `main.py` lines 88-97.  `none` models a
request whose `weights` is absent or not a dict; the empty list models the
empty dict (falsy in Python, hence the `else` branch).
`total = sum(merged.values()) or 1.0` makes the divisor 1 when the merged
sum is 0. -/
def resolveWeights (user : Option (List (String × ℚ))) : CriteriaWeights :=
  match user with
  | none => default_weights
  | some u =>
    if u.isEmpty then default_weights
    else
      let merged := mergeUserWeights u
      let total := if weightsSum merged = 0 then 1 else weightsSum merged
      divWeights merged total

/-- `best_landing = max(r["landing"] for r in numeric_results) if
numeric_results else 0.0` (`main.py` line 99). -/
def bestLanding (rs : List NumericResult) : ℚ :=
  match rs.map (·.landing) with
  | [] => 0
  | x :: xs => xs.foldl max x

/-- `min(r["fees"] for r in numeric_results) if numeric_results else 0.0`
(`main.py` line 100). -/
def minAllFees (rs : List NumericResult) : ℚ :=
  match rs.map (·.fees) with
  | [] => 0
  | x :: xs => xs.foldl min x

/-- `best_fees` with the zero-fee fallback (`main.py` lines 100-102):
when the minimum fee is 0, fall back to the minimum strictly positive fee,
default 1.0 when there is none. -/
def bestFees (rs : List NumericResult) : ℚ :=
  let bf := minAllFees rs
  if bf = 0 then
    match (rs.filter (fun r => 0 < r.fees)).map (·.fees) with
    | [] => 1
    | x :: xs => xs.foldl min x
  else bf

/-- The `component_scores` dict of an augmented entry
(`main.py` lines 130-137). -/
structure ComponentScores where
  financial : ℚ
  trust : ℚ
  service : ℚ
  customer_satisfaction : ℚ
  reliability : ℚ
  speed : ℚ
deriving DecidableEq

/-- One augmented entry: the matched numeric result spread together with the
rounded component scores and rounded composite (`main.py` lines 128-139). -/
structure ScoredCandidate where
  base : NumericResult
  component_scores : ComponentScores
  composite_score : ℚ
deriving DecidableEq

/-- The per-candidate scoring of `main.py` lines 109-139: financial
sub-score from the matched landing/fees, the five normalized quality
scores, composite = weighted sum, everything rounded to 6 decimals in the
output entry. -/
def scoreCandidate (weights : CriteriaWeights) (best_landing best_fees : ℚ)
    (p : Provider) (m : NumericResult) : ScoredCandidate :=
  let financial_score := compute_financial_score m.landing m.fees best_landing best_fees
  let trust_n := _normalize p.trust_score
  let service_n := _normalize p.service_quality
  let cust_n := _normalize p.customer_satisfaction
  let reliability_n := _normalize p.reliability
  let speed_n := _normalize p.speed_score
  let composite :=
    weights.fees_fx * financial_score +
    weights.trust * trust_n +
    weights.service * service_n +
    weights.customer_satisfaction * cust_n +
    weights.reliability * reliability_n +
    weights.speed * speed_n
  { base := m
    component_scores :=
      { financial := round6 financial_score, trust := round6 trust_n
        service := round6 service_n, customer_satisfaction := round6 cust_n
        reliability := round6 reliability_n, speed := round6 speed_n }
    composite_score := round6 composite }

/-- The `augmented` list (`main.py` lines 104-139): for each provider, the
first numeric result with the same code (`next(...)`, skipped when absent)
scored with the resolved weights and the pool bests. -/
def augmentedList (providers : List Provider) (rs : List NumericResult)
    (weights : CriteriaWeights) (best_landing best_fees : ℚ) : List ScoredCandidate :=
  providers.filterMap (fun p =>
    (rs.find? (fun x => x.code == p.code)).map (scoreCandidate weights best_landing best_fees p))

/-- The sort key comparison of `sorted(augmented, key=lambda x:
-x["composite_score"])` (`main.py` line 141): Python's stable sort is
ascending on the key `-composite_score`. -/
def leByNegComposite (a b : ScoredCandidate) : Bool :=
  decide (-a.composite_score ≤ -b.composite_score)

/-- The whole candidate-scoring stage of `quote` for a given spot rate:
numeric results, resolved weights, pool bests, augmented list
(`main.py` lines 65-139). -/
def quoteAugmented (providers : List Provider) (amount rate : ℚ)
    (userWeights : Option (List (String × ℚ))) : List ScoredCandidate :=
  let rs := numericResults amount rate providers
  augmentedList providers rs (resolveWeights userWeights) (bestLanding rs) (bestFees rs)

/-- The body of `QuoteRequest` (`main.py` lines 33-39).  `top_n` is kept a
natural number: the claims under study only concern positive `top_n`, and
Python list slicing with a non-negative bound is `List.take`. -/
structure QuoteRequest where
  from_currency : String
  to_currency : String
  amount : ℚ
  criteria : List String := ["best_landing", "lowest_fees"]
  top_n : ℕ := 3
  weights : Option (List (String × ℚ)) := none
deriving DecidableEq

/-- An `HTTPException` raised by `quote`: status code and detail message. -/
structure QuoteError where
  status_code : ℕ
  detail : String
deriving DecidableEq

/-- The success payload of `quote` (`main.py` line 143). -/
structure QuoteResponse where
  from_cur : String
  to_cur : String
  amount : ℚ
  rate : ℚ
  results : List ScoredCandidate
  weights : CriteriaWeights
deriving DecidableEq

/-- `rates` lookup: `to_cur not in rates` / `rates[to_cur]`
(`main.py` lines 60-63).  The rates mapping is the data returned by the
external `get_live_rates` collaborator, passed in as input. -/
def lookupRate (rates : List (String × ℚ)) (cur : String) : Option ℚ :=
  (rates.find? (fun kv => kv.1 == cur)).map (·.2)

/-- The `/quote` endpoint (`main.py` lines 46-143).  The provider store
contents and the live-rates mapping are the two pieces of external data the
handler reads; they are passed as inputs.  `HTTPException` is the error
branch of `Except`. -/
def quote (providers : List Provider) (rates : List (String × ℚ))
    (req : QuoteRequest) : Except QuoteError QuoteResponse :=
  let from_cur := strUpper req.from_currency
  let to_cur := strUpper req.to_currency
  let amount := req.amount
  if amount ≤ 0 then .error ⟨400, "amount must be > 0"⟩
  else if providers.isEmpty then .error ⟨500, "no providers available"⟩
  else
    match lookupRate rates to_cur with
    | none => .error ⟨400, "currency pair " ++ from_cur ++ "->" ++ to_cur ++ " not available"⟩
    | some rate =>
      let augmented := quoteAugmented providers amount rate req.weights
      let results_sorted := augmented.mergeSort leByNegComposite
      .ok { from_cur := from_cur, to_cur := to_cur, amount := amount
            rate := rate, results := results_sorted.take req.top_n
            weights := resolveWeights req.weights }

/-- The composite expression of `main.py` lines 119-126 (the weighted sum of
the financial sub-score and the five normalized quality scores), spelled out
for use in statements. -/
def rawComposite (weights : CriteriaWeights) (best_landing best_fees : ℚ)
    (p : Provider) (m : NumericResult) : ℚ :=
  weights.fees_fx * compute_financial_score m.landing m.fees best_landing best_fees +
  weights.trust * _normalize p.trust_score +
  weights.service * _normalize p.service_quality +
  weights.customer_satisfaction * _normalize p.customer_satisfaction +
  weights.reliability * _normalize p.reliability +
  weights.speed * _normalize p.speed_score

/-- The six recognized criteria keys (the keys of `default_weights`). -/
def recognizedKeys : List String :=
  ["fees_fx", "trust", "service", "customer_satisfaction", "reliability", "speed"]

/-- Follows the spec's words, for comparison with the code (§7: invalid
input is "surfaced to the caller as a client-facing validation failure"):
a client-facing validation failure is an HTTP error in the 4xx
client-error class. -/
def isClientValidationFailure (e : QuoteError) : Prop :=
  400 ≤ e.status_code ∧ e.status_code < 500

/-! ### Concrete fixtures used to witness the theorems on concrete runs -/

/-- A numeric-result fixture with the given code, landing and fees. -/
def sampleNR (code : String) (landing fees : ℚ) : NumericResult :=
  { provider_id := 0, code := code, name := code, country := "SG"
    landing := landing, effective_rate := 1, fees := fees
    fee_breakdown := [], notes := "" }

/-- A candidate pool whose minimum fee is 0 and whose positive fees are
{5, 3}. -/
def rsW4 : List NumericResult :=
  [sampleNR "A" 10 0, sampleNR "B" 8 5, sampleNR "C" 9 3]

/-- A user weights mapping setting all six recognized weights to 0. -/
def zeroWeightsInput : List (String × ℚ) :=
  [("fees_fx", 0), ("trust", 0), ("service", 0), ("customer_satisfaction", 0),
   ("reliability", 0), ("speed", 0)]

/-- Fee rules fixture: fixed fee 5, no percentage fee, no fx margin. -/
def feeRulesW : FeeRules := { fixed_fee := 5, pct_fee := 0, fx_margin := 0 }

/-- Provider fixture. -/
def providerW : Provider :=
  { provider_id := 1, code := "P1", name := "One", country := "SG"
    fee_rules := feeRulesW, trust_score := 80, service_quality := 80
    customer_satisfaction := 80, reliability := 80, speed_score := 80
    notes := "" }

/-- Request fixture: 100 USD to EUR, default criteria/top_n/weights. -/
def reqW : QuoteRequest :=
  { from_currency := "USD", to_currency := "EUR", amount := 100 }

/-- Live-rates fixture: EUR at 2. -/
def ratesW : List (String × ℚ) := [("EUR", 2)]

/-- The numeric result `quote` computes for `providerW` at amount 100 and
rate 2: fees 5, landing (100 - 5) * 2 = 190. -/
def nrW : NumericResult :=
  { provider_id := 1, code := "P1", name := "One", country := "SG"
    landing := 190, effective_rate := 2, fees := 5
    fee_breakdown := [("fixed_fee", 5), ("percentage_fee", 0)], notes := "" }

/-- The scored candidate `quote` computes for `providerW`: financial
sub-score 1 (it is the only candidate), all quality scores 80/100 = 4/5,
composite 1/2 * 1 + 1/2 * 4/5 = 9/10. -/
def scW : ScoredCandidate :=
  { base := nrW
    component_scores :=
      { financial := 1, trust := 4 / 5, service := 4 / 5
        customer_satisfaction := 4 / 5, reliability := 4 / 5, speed := 4 / 5 }
    composite_score := 9 / 10 }

/-- The full response `quote` computes on the fixtures. -/
def respW : QuoteResponse :=
  { from_cur := "USD", to_cur := "EUR", amount := 100, rate := 2
    results := [scW], weights := default_weights }

/-! ### Helper lemmas -/

theorem leByNegComposite_trans (a b c : ScoredCandidate) :
    leByNegComposite a b → leByNegComposite b c → leByNegComposite a c := by
  simp only [leByNegComposite, decide_eq_true_eq]
  exact le_trans

theorem leByNegComposite_total (a b : ScoredCandidate) :
    leByNegComposite a b || leByNegComposite b a := by
  simp only [leByNegComposite, Bool.or_eq_true, decide_eq_true_eq]
  exact le_total _ _

/-- The stable sort on the key `-composite_score` yields a list that is
pairwise descending on `composite_score`. -/
theorem pairwise_descending_mergeSort (l : List ScoredCandidate) :
    (l.mergeSort leByNegComposite).Pairwise
      (fun a b => b.composite_score ≤ a.composite_score) := by
  have h := List.sorted_mergeSort leByNegComposite_trans leByNegComposite_total l
  exact h.imp (fun hab => by
    simpa [leByNegComposite, neg_le_neg_iff] using hab)

/-- Stability of the sort: the candidates of any fixed composite score are
left in their original relative order (their filtered sublist is unchanged
by the sort). -/
theorem filter_eq_mergeSort (l : List ScoredCandidate) (c : ℚ) :
    (l.mergeSort leByNegComposite).filter (fun x => decide (x.composite_score = c)) =
      l.filter (fun x => decide (x.composite_score = c)) := by
  have hsub1 : List.Sublist (l.filter (fun x => decide (x.composite_score = c)))
      (l.mergeSort leByNegComposite) := by
    apply List.sublist_mergeSort leByNegComposite_trans leByNegComposite_total
    · apply List.pairwise_of_forall_mem_list
      intro a ha b hb
      have ha2 := (List.mem_filter.mp ha).2
      have hb2 := (List.mem_filter.mp hb).2
      simp only [decide_eq_true_eq] at ha2 hb2
      simp [leByNegComposite, ha2, hb2]
    · exact List.filter_sublist l
  have hsub2 := hsub1.filter (fun x => decide (x.composite_score = c))
  rw [List.filter_filter] at hsub2
  simp only [Bool.and_self] at hsub2
  have hlen : ((l.mergeSort leByNegComposite).filter
      (fun x => decide (x.composite_score = c))).length =
      (l.filter (fun x => decide (x.composite_score = c))).length := by
    rw [← List.countP_eq_length_filter, ← List.countP_eq_length_filter]
    exact (List.mergeSort_perm l leByNegComposite).countP_eq _
  exact (hsub2.eq_of_length hlen.symm).symm

theorem length_augmentedList_aux (rs : List NumericResult)
    (weights : CriteriaWeights) (bl bf : ℚ) (ps : List Provider)
    (h : ∀ p ∈ ps, (rs.find? (fun x => x.code == p.code)).isSome) :
    (augmentedList ps rs weights bl bf).length = ps.length := by
  induction ps with
  | nil => rfl
  | cons p ps ih =>
    have hp := h p (List.mem_cons_self p ps)
    rcases Option.isSome_iff_exists.mp hp with ⟨m, hm⟩
    have ht := ih (fun q hq => h q (List.mem_cons_of_mem _ hq))
    simp only [augmentedList, List.filterMap_cons, hm, Option.map_some'] at ht ⊢
    simp [ht]

/-- In `quote`, every provider finds a matching numeric result (its own),
so the augmented list has one entry per provider. -/
theorem length_augmentedList (providers : List Provider) (amount rate : ℚ)
    (weights : CriteriaWeights) (bl bf : ℚ) :
    (augmentedList providers (numericResults amount rate providers) weights bl bf).length
      = providers.length := by
  apply length_augmentedList_aux
  intro p hp
  apply List.find?_isSome.mpr
  exact ⟨mkNumericResult amount rate p,
    List.mem_map_of_mem _ hp, by simp [mkNumericResult]⟩

/-- Inversion of a successful `quote` run: the validation gates passed and
the response is the sorted, truncated augmented list. -/
theorem quote_ok_elim {providers : List Provider} {rates : List (String × ℚ)}
    {req : QuoteRequest} {resp : QuoteResponse}
    (h : quote providers rates req = .ok resp) :
    ∃ rate, lookupRate rates (strUpper req.to_currency) = some rate ∧
      ¬ req.amount ≤ 0 ∧ providers.isEmpty = false ∧
      resp = { from_cur := strUpper req.from_currency
               to_cur := strUpper req.to_currency
               amount := req.amount, rate := rate
               results := ((quoteAugmented providers req.amount rate
                 req.weights).mergeSort leByNegComposite).take req.top_n
               weights := resolveWeights req.weights } := by
  simp only [quote] at h
  by_cases h1 : req.amount ≤ 0
  · rw [if_pos h1] at h; exact absurd h (by simp)
  rw [if_neg h1] at h
  by_cases h2 : providers.isEmpty
  · rw [if_pos h2] at h; exact absurd h (by simp)
  rw [if_neg h2] at h
  cases hr : lookupRate rates (strUpper req.to_currency) with
  | none => rw [hr] at h; exact absurd h (by simp)
  | some rate =>
    rw [hr] at h
    simp only [Except.ok.injEq] at h
    exact ⟨rate, rfl, h1, by simpa using h2, h.symm⟩

/-- Inversion of membership in the augmented list: every scored candidate
comes from a provider of the pool and a matched numeric result. -/
theorem mem_augmentedList_elim {x : ScoredCandidate} {providers : List Provider}
    {rs : List NumericResult} {weights : CriteriaWeights} {bl bf : ℚ}
    (hx : x ∈ augmentedList providers rs weights bl bf) :
    ∃ p ∈ providers, ∃ m ∈ rs, x = scoreCandidate weights bl bf p m := by
  simp only [augmentedList, List.mem_filterMap] at hx
  obtain ⟨p, hp, hsome⟩ := hx
  obtain ⟨m, hfind, hsc⟩ := Option.map_eq_some'.mp hsome
  exact ⟨p, hp, m, List.mem_of_find?_eq_some hfind, hsc.symm⟩

/-- Membership in the output of a successful `quote` run implies membership
in the augmented list it sorted. -/
theorem mem_results_of_quote {x : ScoredCandidate} {aug : List ScoredCandidate}
    {n : ℕ} (hx : x ∈ (aug.mergeSort leByNegComposite).take n) : x ∈ aug := by
  have h1 : x ∈ aug.mergeSort leByNegComposite :=
    (List.take_sublist _ _).subset hx
  exact List.mem_mergeSort.mp h1

theorem foldl_min_eq_init_or_mem (xs : List ℚ) :
    ∀ x : ℚ, xs.foldl min x = x ∨ xs.foldl min x ∈ xs := by
  induction xs with
  | nil => intro x; exact Or.inl rfl
  | cons y ys ih =>
    intro x
    rcases ih (min x y) with h | h
    · simp only [List.foldl_cons] at h ⊢
      rcases min_choice x y with h2 | h2
      · rw [h, h2]; exact Or.inl rfl
      · rw [h, h2]; exact Or.inr (List.mem_cons_self _ _)
    · simp only [List.foldl_cons]
      exact Or.inr (List.mem_cons_of_mem _ h)

theorem foldl_min_le_init (xs : List ℚ) : ∀ x : ℚ, xs.foldl min x ≤ x := by
  induction xs with
  | nil => intro x; exact le_refl x
  | cons y ys ih =>
    intro x
    simp only [List.foldl_cons]
    exact le_trans (ih (min x y)) (min_le_left x y)

theorem foldl_min_le_mem (xs : List ℚ) :
    ∀ (x y : ℚ), y ∈ xs → xs.foldl min x ≤ y := by
  induction xs with
  | nil => intro x y hy; cases hy
  | cons z zs ih =>
    intro x y hy
    simp only [List.foldl_cons]
    rcases List.mem_cons.mp hy with h | h
    · subst h
      exact le_trans (foldl_min_le_init zs (min x y)) (min_le_right x y)
    · exact ih (min x z) y h

theorem weightsSum_default : weightsSum default_weights = 1 := by
  norm_num [weightsSum, default_weights]

theorem divWeights_one (w : CriteriaWeights) : divWeights w 1 = w := by
  simp [divWeights]

theorem weightsSum_divWeights (w : CriteriaWeights) (t : ℚ) :
    weightsSum (divWeights w t) = weightsSum w / t := by
  simp [weightsSum, divWeights, div_add_div_same]

theorem setWeight_not_recognized (w : CriteriaWeights) (k : String) (v : ℚ)
    (hk : k ∉ recognizedKeys) : setWeight w k v = w := by
  simp only [recognizedKeys, List.mem_cons, List.not_mem_nil, or_false] at hk
  push_neg at hk
  obtain ⟨h1, h2, h3, h4, h5, h6⟩ := hk
  simp [setWeight, h1, h2, h3, h4, h5, h6]

theorem foldl_setWeight_filter (u : List (String × ℚ)) :
    ∀ w : CriteriaWeights,
      (u.filter (fun kv => kv.1 ∈ recognizedKeys)).foldl
          (fun w kv => setWeight w kv.1 kv.2) w
        = u.foldl (fun w kv => setWeight w kv.1 kv.2) w := by
  induction u with
  | nil => intro w; rfl
  | cons kv t ih =>
    intro w
    by_cases hk : kv.1 ∈ recognizedKeys
    · rw [List.filter_cons, if_pos (by simpa using hk)]
      simp only [List.foldl_cons]
      exact ih _
    · rw [List.filter_cons, if_neg (by simpa using hk)]
      simp only [List.foldl_cons]
      rw [setWeight_not_recognized _ _ _ hk]
      exact ih w

/-! ### The claims -/

/-- C9: the ranking computation is deterministic: two runs of `quote` on
identical inputs (provider records, rates mapping, request) produce
identical output.  The embedded pipeline is a pure function, so determinism
is definitional. -/
theorem quote_deterministic (providers₁ providers₂ : List Provider)
    (rates₁ rates₂ : List (String × ℚ)) (req₁ req₂ : QuoteRequest)
    (hp : providers₁ = providers₂) (hr : rates₁ = rates₂) (hq : req₁ = req₂) :
    quote providers₁ rates₁ req₁ = quote providers₂ rates₂ req₂ := by
  rw [hp, hr, hq]

theorem quote_deterministic_witness :
    quote [providerW] ratesW reqW = quote [providerW] ratesW reqW :=
  quote_deterministic [providerW] [providerW] ratesW ratesW reqW reqW rfl rfl rfl

/-- C6: the financial sub-scorer always returns a value in [0,1], and when
`best_landing` is 0 the landing ratio component is the fixed neutral value
1/2 rather than a division by zero (division is total on `ℚ`, so no
exception can arise for any input). -/
theorem compute_financial_score_in_unit_interval
    (landing fees best_landing best_fees : ℚ) :
    (0 ≤ compute_financial_score landing fees best_landing best_fees ∧
      compute_financial_score landing fees best_landing best_fees ≤ 1) ∧
    (best_landing = 0 →
      compute_financial_score landing fees best_landing best_fees =
        min 1 (max 0 (1 / 2 * (1 / 2) + 1 / 2 * (best_fees / max fees feeEpsilon)))) := by
  simp only [compute_financial_score]
  refine ⟨⟨le_min (by norm_num) (le_max_left 0 _), min_le_left _ _⟩,
    fun h => by rw [if_pos h]⟩

theorem compute_financial_score_in_unit_interval_witness :
    (0 ≤ compute_financial_score 5 2 0 3 ∧ compute_financial_score 5 2 0 3 ≤ 1) ∧
      compute_financial_score 5 2 0 3 =
        min 1 (max 0 (1 / 2 * (1 / 2) + 1 / 2 * (3 / max 2 feeEpsilon))) :=
  ⟨(compute_financial_score_in_unit_interval 5 2 0 3).1,
    (compute_financial_score_in_unit_interval 5 2 0 3).2 rfl⟩

/-- C4: when the minimum fee across a nonempty candidate pool is 0, the
`best_fees` baseline is the lowest strictly positive fee among the
candidates; when no candidate has a positive fee it is the constant 1.0.
(`bestFees` is a total function, so no exception can arise in either
case.) -/
theorem bestFees_zero_fallback (rs : List NumericResult)
    (hne : rs ≠ []) (hmin : minAllFees rs = 0) :
    ((∃ r ∈ rs, 0 < r.fees) →
        (∃ r ∈ rs, 0 < r.fees ∧ bestFees rs = r.fees) ∧
        ∀ r ∈ rs, 0 < r.fees → bestFees rs ≤ r.fees) ∧
    ((∀ r ∈ rs, ¬ 0 < r.fees) → bestFees rs = 1) := by
  have hbf : bestFees rs =
      (match (rs.filter (fun r => 0 < r.fees)).map (·.fees) with
        | [] => (1 : ℚ)
        | x :: xs => xs.foldl min x) := by
    simp only [bestFees, hmin]
    rw [if_pos trivial]
  constructor
  · intro hex
    obtain ⟨r0, hr0, hpos⟩ := hex
    have hmem : r0 ∈ rs.filter (fun r => 0 < r.fees) :=
      List.mem_filter.mpr ⟨hr0, by simpa using hpos⟩
    cases hfl : (rs.filter (fun r => 0 < r.fees)).map (·.fees) with
    | nil =>
      rw [List.map_eq_nil_iff] at hfl
      rw [hfl] at hmem
      cases hmem
    | cons x xs =>
      have hbf2 : bestFees rs = xs.foldl min x := by rw [hbf, hfl]
      rw [hbf2]
      constructor
      · have hx : ∀ y ∈ x :: xs, ∃ r ∈ rs, 0 < r.fees ∧ y = r.fees := by
          intro y hy
          rw [← hfl] at hy
          obtain ⟨r, hrf, hfe⟩ := List.mem_map.mp hy
          have hrm := List.mem_filter.mp hrf
          exact ⟨r, hrm.1, by simpa using hrm.2, hfe.symm⟩
        rcases foldl_min_eq_init_or_mem xs x with h | h
        · obtain ⟨r, hr, hrpos, hre⟩ := hx x (List.mem_cons_self _ _)
          exact ⟨r, hr, hrpos, by rw [h, hre]⟩
        · obtain ⟨r, hr, hrpos, hre⟩ := hx _ (List.mem_cons_of_mem _ h)
          exact ⟨r, hr, hrpos, by rw [← hre]⟩
      · intro r hr hrpos
        have hrmem : r.fees ∈ x :: xs := by
          rw [← hfl]
          exact List.mem_map_of_mem _ (List.mem_filter.mpr ⟨hr, by simpa using hrpos⟩)
        rcases List.mem_cons.mp hrmem with h | h
        · rw [h]; exact foldl_min_le_init xs x
        · exact foldl_min_le_mem xs x r.fees h
  · intro hall
    have hnilf : rs.filter (fun r => 0 < r.fees) = [] :=
      List.filter_eq_nil_iff.mpr (fun r hr => by simpa using hall r hr)
    rw [hbf, hnilf]
    rfl

theorem bestFees_zero_fallback_witness :
    ((∃ r ∈ rsW4, 0 < r.fees) →
        (∃ r ∈ rsW4, 0 < r.fees ∧ bestFees rsW4 = r.fees) ∧
        ∀ r ∈ rsW4, 0 < r.fees → bestFees rsW4 ≤ r.fees) ∧
    ((∀ r ∈ rsW4, ¬ 0 < r.fees) → bestFees rsW4 = 1) :=
  bestFees_zero_fallback rsW4 (by simp [rsW4])
    (by norm_num [minAllFees, rsW4, sampleNR, min_def])

/-- C3 counterexample: the user mapping that sets all six recognized
weights to 0 makes the merged sum 0; `total = sum(merged.values()) or 1.0`
then divides by 1, so the resolved weights all stay 0 and sum to 0, not
to 1 — and the result is not the documented defaults either. -/
theorem resolveWeights_zero_sum_counterexample :
    weightsSum (resolveWeights (some zeroWeightsInput)) ≠ 1 := by
  have h1 : mergeUserWeights zeroWeightsInput =
      { fees_fx := 0, trust := 0, service := 0, customer_satisfaction := 0
        reliability := 0, speed := 0 } := by
    simp [mergeUserWeights, zeroWeightsInput, setWeight]
  have h2 : weightsSum (mergeUserWeights zeroWeightsInput) = 0 := by
    rw [h1]; simp [weightsSum]
  have h3 : resolveWeights (some zeroWeightsInput) =
      mergeUserWeights zeroWeightsInput := by
    simp only [resolveWeights]
    rw [if_neg (by simp [zeroWeightsInput]), if_pos h2, divWeights_one]
  rw [h3, h2]
  norm_num

/-- C3 (amended): the resolver never divides by zero, and for every user
mapping whose merged weights (recognized overrides plus defaults for
untouched keys) have nonzero sum — including the empty mapping and
mappings with unknown keys only — the resolved weights sum to 1.  In the
degenerate case where the merged sum is 0, the divisor falls back to 1 and
the merged weights are returned unchanged (summing to 0, not 1, and not
equal to the defaults). -/
theorem resolveWeights_sum_characterization :
    weightsSum (resolveWeights none) = 1 ∧
    ∀ u : List (String × ℚ),
      (weightsSum (mergeUserWeights u) ≠ 0 →
        weightsSum (resolveWeights (some u)) = 1) ∧
      (weightsSum (mergeUserWeights u) = 0 →
        resolveWeights (some u) = mergeUserWeights u) := by
  constructor
  · exact weightsSum_default
  intro u
  by_cases hu : u.isEmpty = true
  · have hnil : u = [] := List.isEmpty_iff.mp hu
    subst hnil
    constructor
    · intro _
      exact weightsSum_default
    · intro h0
      have : weightsSum (mergeUserWeights []) = 1 := weightsSum_default
      rw [h0] at this
      exact absurd this.symm one_ne_zero
  · constructor
    · intro hne
      have hres : resolveWeights (some u) =
          divWeights (mergeUserWeights u) (weightsSum (mergeUserWeights u)) := by
        simp only [resolveWeights]
        rw [if_neg hu, if_neg hne]
      rw [hres, weightsSum_divWeights, div_self hne]
    · intro h0
      have hres : resolveWeights (some u) = divWeights (mergeUserWeights u) 1 := by
        simp only [resolveWeights]
        rw [if_neg hu, if_pos h0]
      rw [hres, divWeights_one]

theorem resolveWeights_sum_characterization_witness :
    weightsSum (resolveWeights (some [("fees_fx", 0)])) = 1 := by
  apply (resolveWeights_sum_characterization.2 [("fees_fx", 0)]).1
  have : mergeUserWeights [("fees_fx", 0)] =
      { fees_fx := 0, trust := 3 / 20, service := 3 / 20
        customer_satisfaction := 1 / 10, reliability := 3 / 50, speed := 1 / 25 } := by
    simp [mergeUserWeights, setWeight, default_weights]
  rw [this]
  norm_num [weightsSum]

/-- C8: only the six recognized keys override the defaults: `setWeight` on
an unrecognized key is a no-op, so dropping every unrecognized entry of the
user mapping leaves the resolved weights unchanged; the result always has
exactly the recognized keys (its type), and resolution is total (never an
error). -/
theorem resolveWeights_unrecognized_keys (u : List (String × ℚ))
    (w : CriteriaWeights) (k : String) (v : ℚ) (hk : k ∉ recognizedKeys) :
    setWeight w k v = w ∧
    resolveWeights (some (u.filter (fun kv => kv.1 ∈ recognizedKeys))) =
      resolveWeights (some u) := by
  refine ⟨setWeight_not_recognized w k v hk, ?_⟩
  have hm : mergeUserWeights (u.filter (fun kv => kv.1 ∈ recognizedKeys)) =
      mergeUserWeights u := foldl_setWeight_filter u default_weights
  by_cases hu : u.isEmpty = true
  · have hnil : u = [] := List.isEmpty_iff.mp hu
    subst hnil
    rfl
  · by_cases hf : (u.filter (fun kv => kv.1 ∈ recognizedKeys)).isEmpty = true
    · have hfnil : u.filter (fun kv => kv.1 ∈ recognizedKeys) = [] :=
        List.isEmpty_iff.mp hf
      have hmu : mergeUserWeights u = default_weights := by
        rw [← hm, hfnil]; rfl
      have hL : resolveWeights (some (u.filter (fun kv => kv.1 ∈ recognizedKeys))) =
          default_weights := by
        rw [hfnil]; rfl
      have hR : resolveWeights (some u) = default_weights := by
        simp only [resolveWeights]
        rw [if_neg hu, hmu, weightsSum_default, if_neg one_ne_zero, divWeights_one]
      rw [hL, hR]
    · simp only [resolveWeights]
      rw [if_neg hu, if_neg hf, hm]

theorem resolveWeights_unrecognized_keys_witness :
    setWeight default_weights "commission" 7 = default_weights ∧
    resolveWeights (some ([(("commission" : String), (7 : ℚ)),
        (("trust" : String), (1 : ℚ))].filter (fun kv => kv.1 ∈ recognizedKeys))) =
      resolveWeights (some [(("commission" : String), (7 : ℚ)),
        (("trust" : String), (1 : ℚ))]) :=
  resolveWeights_unrecognized_keys [("commission", 7), ("trust", 1)]
    default_weights "commission" 7 (by simp [recognizedKeys])

/-- C7 counterexample: with an empty provider store and an otherwise valid
request, `quote` rejects with HTTP status 500 ("no providers available"),
which is a server-error status, not a client-facing (4xx) validation
failure. -/
theorem quote_empty_store_counterexample :
    quote [] ratesW reqW = .error ⟨500, "no providers available"⟩ ∧
    ¬ isClientValidationFailure ⟨500, "no providers available"⟩ :=
  ⟨by
    simp only [quote, reqW]
    rw [if_neg (by norm_num)]
    rfl,
   fun h => absurd h.2 (by decide)⟩

/-- C7 (amended): every invalid input — amount ≤ 0, an empty provider
store, or an unsupported currency pair — is rejected before the ranking
computation runs and surfaced to the caller as an `HTTPException` with a
descriptive message; amount and currency-pair violations get client-facing
400 validation errors, but the empty provider store gets a 500 server
error (not a 4xx client validation failure). -/
theorem quote_invalid_input_rejected (providers : List Provider)
    (rates : List (String × ℚ)) (req : QuoteRequest) :
    (req.amount ≤ 0 → quote providers rates req = .error ⟨400, "amount must be > 0"⟩) ∧
    (¬ req.amount ≤ 0 → providers = [] →
      quote providers rates req = .error ⟨500, "no providers available"⟩) ∧
    (¬ req.amount ≤ 0 → providers ≠ [] →
      lookupRate rates (strUpper req.to_currency) = none →
      quote providers rates req = .error ⟨400,
        "currency pair " ++ strUpper req.from_currency ++ "->" ++
          strUpper req.to_currency ++ " not available"⟩) := by
  refine ⟨?_, ?_, ?_⟩
  · intro h1
    simp only [quote]
    rw [if_pos h1]
  · intro h1 h2
    subst h2
    simp only [quote]
    rw [if_neg h1]
    rfl
  · intro h1 h2 h3
    simp only [quote]
    rw [if_neg h1, if_neg (by simpa using h2), h3]

theorem quote_invalid_input_rejected_witness :
    quote [providerW] ratesW
        { from_currency := "USD", to_currency := "EUR", amount := 0 } =
      .error ⟨400, "amount must be > 0"⟩ :=
  (quote_invalid_input_rejected [providerW] ratesW
    { from_currency := "USD", to_currency := "EUR", amount := 0 }).1 le_rfl

/-- C5: for every successful `quote` run with positive `top_n`, the ranked
output has length `min top_n candidate_count`: truncation to `top_n`
entries, all candidates when `top_n` exceeds the pool size. -/
theorem quote_results_length (providers : List Provider)
    (rates : List (String × ℚ)) (req : QuoteRequest) (resp : QuoteResponse)
    (hpos : 0 < req.top_n) (h : quote providers rates req = .ok resp) :
    resp.results.length = min req.top_n providers.length := by
  obtain ⟨rate, hr, h1, h2, hresp⟩ := quote_ok_elim h
  subst hresp
  dsimp only
  simp only [List.length_take, List.length_mergeSort, quoteAugmented]
  rw [length_augmentedList]

/-- C1: the ranked output of every successful `quote` run is ordered
descending by (rounded) composite score, and the candidates of any given
composite score appear as a subsequence of the augmented list, i.e. in
their original candidate input order; determinism is the subject of C9. -/
theorem quote_results_sorted_and_stable (providers : List Provider)
    (rates : List (String × ℚ)) (req : QuoteRequest) (resp : QuoteResponse)
    (h : quote providers rates req = .ok resp) :
    resp.results.Pairwise (fun a b => b.composite_score ≤ a.composite_score) ∧
    ∀ c : ℚ, List.Sublist
      (resp.results.filter (fun x => x.composite_score = c))
      (quoteAugmented providers req.amount resp.rate req.weights) := by
  obtain ⟨rate, hr, h1, h2, hresp⟩ := quote_ok_elim h
  subst hresp
  dsimp only
  constructor
  · exact List.Pairwise.sublist (List.take_sublist _ _)
      (pairwise_descending_mergeSort _)
  · intro c
    have hs := (List.take_sublist req.top_n
      ((quoteAugmented providers req.amount rate req.weights).mergeSort
        leByNegComposite)).filter (fun x => decide (x.composite_score = c))
    rw [filter_eq_mergeSort] at hs
    exact hs.trans (List.filter_sublist _)

/-- C2: in every successful `quote` run, every ranked candidate `x` is the
scoring of one provider `p` and its matched numeric result `m` — so
`x.base = m`, i.e. `x` carries that candidate's own landing/fees — and
`x`'s composite score is (the 6-decimal rounding of) the weighted sum, per
the resolved weights, of that same candidate's financial sub-score
(from `m`'s landing/fees and the pool bests) and `p`'s five normalized
quality scores. -/
theorem quote_composite_is_weighted_sum (providers : List Provider)
    (rates : List (String × ℚ)) (req : QuoteRequest) (resp : QuoteResponse)
    (x : ScoredCandidate) (h : quote providers rates req = .ok resp)
    (hx : x ∈ resp.results) :
    ∃ p ∈ providers, ∃ m ∈ numericResults req.amount resp.rate providers,
      x = scoreCandidate (resolveWeights req.weights)
        (bestLanding (numericResults req.amount resp.rate providers))
        (bestFees (numericResults req.amount resp.rate providers)) p m ∧
      x.base = m ∧
      x.composite_score =
        round6 (rawComposite (resolveWeights req.weights)
          (bestLanding (numericResults req.amount resp.rate providers))
          (bestFees (numericResults req.amount resp.rate providers)) p m) := by
  obtain ⟨rate, hr, h1, h2, hresp⟩ := quote_ok_elim h
  subst hresp
  dsimp only at hx ⊢
  have hmem : x ∈ quoteAugmented providers req.amount rate req.weights :=
    mem_results_of_quote hx
  simp only [quoteAugmented] at hmem
  obtain ⟨p, hp, m, hm, hxe⟩ := mem_augmentedList_elim hmem
  refine ⟨p, hp, m, hm, hxe, ?_, ?_⟩
  · rw [hxe]
    rfl
  · rw [hxe]
    rfl

/-- C10: in every successful `quote` run, each output entry's six component
scores and composite score are the 6-decimal roundings of the corresponding
raw values, and the descending sort is performed on the rounded composite:
candidates whose raw composites round to the same 6-decimal value are tied
and appear in their original candidate input order (as a subsequence of the
augmented list). -/
theorem quote_rounded_scores_and_ties (providers : List Provider)
    (rates : List (String × ℚ)) (req : QuoteRequest) (resp : QuoteResponse)
    (h : quote providers rates req = .ok resp) :
    (∀ x ∈ resp.results,
      ∃ p ∈ providers, ∃ m ∈ numericResults req.amount resp.rate providers,
        x.component_scores.financial =
          round6 (compute_financial_score m.landing m.fees
            (bestLanding (numericResults req.amount resp.rate providers))
            (bestFees (numericResults req.amount resp.rate providers))) ∧
        x.component_scores.trust = round6 (_normalize p.trust_score) ∧
        x.component_scores.service = round6 (_normalize p.service_quality) ∧
        x.component_scores.customer_satisfaction =
          round6 (_normalize p.customer_satisfaction) ∧
        x.component_scores.reliability = round6 (_normalize p.reliability) ∧
        x.component_scores.speed = round6 (_normalize p.speed_score) ∧
        x.composite_score =
          round6 (rawComposite (resolveWeights req.weights)
            (bestLanding (numericResults req.amount resp.rate providers))
            (bestFees (numericResults req.amount resp.rate providers)) p m)) ∧
    (∀ c : ℚ, List.Sublist
      (resp.results.filter (fun x => x.composite_score = round6 c))
      (quoteAugmented providers req.amount resp.rate req.weights)) := by
  obtain ⟨rate, hr, h1, h2, hresp⟩ := quote_ok_elim h
  subst hresp
  dsimp only
  constructor
  · intro x hx
    have hmem : x ∈ quoteAugmented providers req.amount rate req.weights :=
      mem_results_of_quote hx
    simp only [quoteAugmented] at hmem
    obtain ⟨p, hp, m, hm, hxe⟩ := mem_augmentedList_elim hmem
    subst hxe
    exact ⟨p, hp, m, hm, rfl, rfl, rfl, rfl, rfl, rfl, rfl⟩
  · intro c
    have hs := (List.take_sublist req.top_n
      ((quoteAugmented providers req.amount rate req.weights).mergeSort
        leByNegComposite)).filter (fun x => decide (x.composite_score = round6 c))
    rw [filter_eq_mergeSort] at hs
    exact hs.trans (List.filter_sublist _)

/-- Concrete evaluation: the numeric result of the fixture provider. -/
theorem mkNumericResult_W : mkNumericResult (100 : ℚ) 2 providerW = nrW := by
  simp only [mkNumericResult, compute_for_provider, clampFee, providerW, feeRulesW, nrW,
    NumericResult.mk.injEq]
  norm_num

theorem numericResults_W : numericResults (100 : ℚ) 2 [providerW] = [nrW] := by
  simp [numericResults, mkNumericResult_W]

theorem bestLanding_W : bestLanding [nrW] = 190 := by
  simp [bestLanding, nrW]

theorem bestFees_W : bestFees [nrW] = 5 := by
  have h5 : minAllFees [nrW] = 5 := by simp [minAllFees, nrW]
  simp only [bestFees, h5]
  norm_num

theorem scoreCandidate_W :
    scoreCandidate (resolveWeights none) 190 5 providerW nrW = scW := by
  have hfin : compute_financial_score 190 5 190 5 = 1 := by
    simp only [compute_financial_score, feeEpsilon]
    norm_num [min_def, max_def]
  have hnorm : _normalize 80 = 4 / 5 := by
    simp only [_normalize]
    norm_num [min_def, max_def]
  have hrw : resolveWeights none = default_weights := rfl
  rw [hrw]
  simp only [scoreCandidate, providerW, nrW, hnorm, scW,
    ScoredCandidate.mk.injEq, ComponentScores.mk.injEq]
  norm_num [hfin, default_weights, round6]

/-- The fixture run of `quote` succeeds and produces `respW`. -/
theorem quoteW_eval : quote [providerW] ratesW reqW = .ok respW := by
  have haug : quoteAugmented [providerW] (100 : ℚ) 2 none = [scW] := by
    simp only [quoteAugmented]
    rw [numericResults_W, bestLanding_W, bestFees_W]
    simp only [augmentedList, List.filterMap_cons, List.find?]
    have hbeq : (nrW.code == providerW.code) = true := by simp [nrW, providerW]
    simp [hbeq, scoreCandidate_W]
  simp only [quote, reqW]
  rw [if_neg (show ¬ (100 : ℚ) ≤ 0 by norm_num)]
  rw [if_neg (show ¬ (([providerW] : List Provider).isEmpty = true) by simp)]
  have hlr : lookupRate ratesW (strUpper "EUR") = some 2 := rfl
  rw [hlr]
  dsimp only
  rw [haug]
  have h1 : strUpper "USD" = "USD" := rfl
  have h2 : strUpper "EUR" = "EUR" := rfl
  simp [respW, h1, h2, List.mergeSort_singleton]
  rfl

theorem quote_results_length_witness :
    respW.results.length = min reqW.top_n [providerW].length :=
  quote_results_length [providerW] ratesW reqW respW (by decide) quoteW_eval

theorem quote_results_sorted_and_stable_witness :
    respW.results.Pairwise (fun a b => b.composite_score ≤ a.composite_score) ∧
    List.Sublist (respW.results.filter (fun x => x.composite_score = 9 / 10))
      (quoteAugmented [providerW] reqW.amount respW.rate reqW.weights) :=
  ⟨(quote_results_sorted_and_stable [providerW] ratesW reqW respW quoteW_eval).1,
    (quote_results_sorted_and_stable [providerW] ratesW reqW respW quoteW_eval).2 (9 / 10)⟩

theorem quote_composite_is_weighted_sum_witness :
    ∃ p ∈ [providerW], ∃ m ∈ numericResults reqW.amount respW.rate [providerW],
      scW = scoreCandidate (resolveWeights reqW.weights)
        (bestLanding (numericResults reqW.amount respW.rate [providerW]))
        (bestFees (numericResults reqW.amount respW.rate [providerW])) p m ∧
      scW.base = m ∧
      scW.composite_score =
        round6 (rawComposite (resolveWeights reqW.weights)
          (bestLanding (numericResults reqW.amount respW.rate [providerW]))
          (bestFees (numericResults reqW.amount respW.rate [providerW])) p m) :=
  quote_composite_is_weighted_sum [providerW] ratesW reqW respW scW quoteW_eval
    (by simp [respW])

theorem quote_rounded_scores_and_ties_witness :
    (∃ p ∈ [providerW], ∃ m ∈ numericResults reqW.amount respW.rate [providerW],
      scW.component_scores.financial =
        round6 (compute_financial_score m.landing m.fees
          (bestLanding (numericResults reqW.amount respW.rate [providerW]))
          (bestFees (numericResults reqW.amount respW.rate [providerW]))) ∧
      scW.component_scores.trust = round6 (_normalize p.trust_score) ∧
      scW.component_scores.service = round6 (_normalize p.service_quality) ∧
      scW.component_scores.customer_satisfaction =
        round6 (_normalize p.customer_satisfaction) ∧
      scW.component_scores.reliability = round6 (_normalize p.reliability) ∧
      scW.component_scores.speed = round6 (_normalize p.speed_score) ∧
      scW.composite_score =
        round6 (rawComposite (resolveWeights reqW.weights)
          (bestLanding (numericResults reqW.amount respW.rate [providerW]))
          (bestFees (numericResults reqW.amount respW.rate [providerW])) p m)) ∧
    List.Sublist (respW.results.filter (fun x => x.composite_score = round6 (9 / 10)))
      (quoteAugmented [providerW] reqW.amount respW.rate reqW.weights) :=
  ⟨(quote_rounded_scores_and_ties [providerW] ratesW reqW respW quoteW_eval).1 scW
      (by simp [respW]),
    (quote_rounded_scores_and_ties [providerW] ratesW reqW respW quoteW_eval).2 (9 / 10)⟩
